import Mathlib

/-!
Verification of the word-worm puzzle generator core
(`src/build_dictionary.js`): the Trie, the 4×4 adjacency model, the
DFS word finder (`findWordsRecursive` / `solveBoard`), the structural
constraint validator, and the rejection-sampling orchestrator
(`generateDailyPuzzle`).

Boards are modelled as `List Char` (the JS board is an array of 16
single-letter strings); words as `List Char`; the JS `Set` of found
words as a duplicate-free `List (List Char)` grown in insertion order.
The DFS recursion is given an explicit fuel argument (the JS recursion
is bounded by the 16-cell grid); `solveBoard` runs it with fuel 16,
which is proved sufficient below.
-/

/-- Trie node: `isEndOfWord` flag plus a letter-to-child mapping,
mirroring the JS object `{ [char]: childNode, isEndOfWord: bool }`. -/
inductive Trie where
  | node : Bool → List (Char × Trie) → Trie

def Trie.isEnd : Trie → Bool
  | .node e _ => e

def Trie.children : Trie → List (Char × Trie)
  | .node _ cs => cs

/-- Lookup of a child by letter (JS `node[char]`). -/
def findChild (c : Char) : List (Char × Trie) → Option Trie
  | [] => none
  | (c', t) :: rest => if c' = c then some t else findChild c rest

/-- Replace or append the child for letter `c` (JS `node[char] = ...`). -/
def setChild (c : Char) (t : Trie) : List (Char × Trie) → List (Char × Trie)
  | [] => [(c, t)]
  | (c', t') :: rest => if c' = c then (c, t) :: rest else (c', t') :: setChild c t rest

/-- JS `Trie.insert(word)`: walk the word, creating empty child nodes
(`if (!node[char]) node[char] = {}`) as needed, then mark the final
node with `isEndOfWord = true`. -/
def Trie.insert : Trie → List Char → Trie
  | .node _ cs, [] => .node true cs
  | .node e cs, c :: w =>
      .node e (setChild c (((findChild c cs).getD (.node false [])).insert w) cs)

/-- Walk the trie along a word, returning the final node if every
letter has a child (the loop body of JS `Trie.search`). -/
def Trie.searchNode : Trie → List Char → Option Trie
  | t, [] => some t
  | .node _ cs, c :: w =>
      match findChild c cs with
      | none => none
      | some child => child.searchNode w

/-- JS `Trie.search(word, isPrefix)`: `false` if the walk falls off the
trie, otherwise `true` when `isPrefix`, else the final node's
`isEndOfWord === true`. -/
def Trie.search (t : Trie) (word : List Char) (asPre : Bool) : Bool :=
  match t.searchNode word with
  | none => false
  | some n => if asPre then true else n.isEnd

/-- The empty trie: root `{}` with no children and no terminal marker. -/
def emptyTrie : Trie := .node false []

/-- Build a trie by inserting a list of words into the empty trie. -/
def buildTrie (ws : List (List Char)) : Trie := ws.foldl Trie.insert emptyTrie

-- Basic search/insert lemmas

theorem search_nil (e : Bool) (cs : List (Char × Trie)) (b : Bool) :
    (Trie.node e cs).search [] b = if b then true else e := rfl

theorem search_cons (e : Bool) (cs : List (Char × Trie)) (c : Char) (w : List Char) (b : Bool) :
    (Trie.node e cs).search (c :: w) b =
      match findChild c cs with
      | none => false
      | some child => child.search w b := by
  cases h : findChild c cs <;> simp [Trie.search, Trie.searchNode, h]

theorem findChild_setChild_self (c : Char) (t : Trie) (cs : List (Char × Trie)) :
    findChild c (setChild c t cs) = some t := by
  induction cs with
  | nil => simp [setChild, findChild]
  | cons p rest ih =>
      obtain ⟨c', t'⟩ := p
      by_cases h : c' = c
      · simp [setChild, h, findChild]
      · simp [setChild, h, findChild, ih]

theorem findChild_setChild_ne (c d : Char) (t : Trie) (cs : List (Char × Trie))
    (h : d ≠ c) : findChild d (setChild c t cs) = findChild d cs := by
  induction cs with
  | nil => simp [setChild, findChild, Ne.symm h]
  | cons p rest ih =>
      obtain ⟨c', t'⟩ := p
      by_cases hc : c' = c
      · subst hc
        simp [setChild, findChild, Ne.symm h]
      · by_cases hd : c' = d
        · subst hd
          simp [setChild, hc, findChild, h]
        · simp [setChild, hc, findChild, hd, ih]

theorem search_insert_self (w : List Char) : ∀ t : Trie, (t.insert w).search w false = true := by
  induction w with
  | nil =>
      rintro ⟨e, cs⟩
      simp [Trie.insert, Trie.search, Trie.searchNode, Trie.isEnd]
  | cons c w ih =>
      rintro ⟨e, cs⟩
      rw [Trie.insert, search_cons, findChild_setChild_self]
      exact ih _

theorem search_insert_pre (w : List Char) :
    ∀ (p : List Char) (t : Trie), p <+: w → (t.insert w).search p true = true := by
  induction w with
  | nil =>
      rintro p ⟨e, cs⟩ hp
      rw [List.prefix_nil.mp hp]
      rfl
  | cons c w ih =>
      rintro p ⟨e, cs⟩ hp
      cases p with
      | nil => rfl
      | cons d p =>
          obtain ⟨hd, hp'⟩ := (List.cons_prefix_cons).mp hp
          subst hd
          rw [Trie.insert, search_cons, findChild_setChild_self]
          exact ih _ _ hp'

/-- Searching a word other than `w` in the single-word trie for `w` fails. -/
theorem search_single_ne (w : List Char) :
    ∀ v : List Char, v ≠ w → (emptyTrie.insert w).search v false = false := by
  induction w with
  | nil =>
      intro v hv
      cases v with
      | nil => exact absurd rfl hv
      | cons c v => rfl
  | cons c w ih =>
      intro v hv
      cases v with
      | nil => rfl
      | cons d v =>
          rw [emptyTrie, Trie.insert, search_cons]
          by_cases hd : d = c
          · subst hd
            rw [findChild_setChild_self]
            have hvw : v ≠ w := by intro h; exact hv (by rw [h])
            simpa [emptyTrie] using ih v hvw
          · have hnone : ∀ X : Trie, findChild d (setChild c X []) = none := by
              intro X
              simp [setChild, findChild, Ne.symm hd]
            rw [hnone]

theorem search_insert_ne (w : List Char) :
    ∀ (v : List Char) (t : Trie), v ≠ w →
      (t.insert w).search v false = t.search v false := by
  induction w with
  | nil =>
      rintro v ⟨e, cs⟩ hv
      cases v with
      | nil => exact absurd rfl hv
      | cons c v => rw [Trie.insert, search_cons, search_cons]
  | cons c w ih =>
      rintro v ⟨e, cs⟩ hv
      cases v with
      | nil => rfl
      | cons d v =>
          rw [Trie.insert, search_cons, search_cons]
          by_cases hd : d = c
          · subst hd
            rw [findChild_setChild_self]
            have hvw : v ≠ w := by intro h; exact hv (by rw [h])
            cases hfc : findChild d cs with
            | none =>
                simpa [hfc, emptyTrie] using search_single_ne w v hvw
            | some child =>
                simp only [hfc, Option.getD_some]
                exact ih v child hvw
          · rw [findChild_setChild_ne c d _ _ hd]

theorem search_empty_false (v : List Char) : emptyTrie.search v false = false := by
  cases v with
  | nil => rfl
  | cons c v => rw [emptyTrie, search_cons]; rfl

/-- Any string found complete after an insert is preserved by later inserts. -/
theorem search_insert_mono (w v : List Char) (t : Trie)
    (h : t.search v false = true) : (t.insert w).search v false = true := by
  by_cases hv : v = w
  · subst hv; exact search_insert_self v t
  · rw [search_insert_ne w v t hv]; exact h

/-- Valid-prefix searches are preserved by inserts. -/
theorem search_insert_pre_mono (w : List Char) :
    ∀ (p : List Char) (t : Trie), t.search p true = true →
      (t.insert w).search p true = true := by
  induction w with
  | nil =>
      rintro p ⟨e, cs⟩ h
      cases p with
      | nil => rfl
      | cons c p => rw [Trie.insert, search_cons]; rwa [search_cons] at h
  | cons c w ih =>
      rintro p ⟨e, cs⟩ h
      cases p with
      | nil => rfl
      | cons d p =>
          rw [Trie.insert, search_cons]
          rw [search_cons] at h
          by_cases hd : d = c
          · subst hd
            rw [findChild_setChild_self]
            cases hfc : findChild d cs with
            | none => rw [hfc] at h; exact absurd h (by simp)
            | some child =>
                rw [hfc] at h
                simp only [hfc, Option.getD_some]
                exact ih p child h
          · rw [findChild_setChild_ne c d _ _ hd]
            rw [← search_cons e cs d p true] at h ⊢
            exact h

theorem buildTrie_search_mem (ws : List (List Char)) :
    ∀ (t : Trie) (w : List Char), w ∈ ws ∨ t.search w false = true →
      (ws.foldl Trie.insert t).search w false = true := by
  induction ws with
  | nil =>
      intro t w h
      rcases h with h | h
      · exact absurd h (List.not_mem_nil w)
      · exact h
  | cons v rest ih =>
      intro t w h
      rcases h with h | h
      · rcases List.mem_cons.mp h with h | h
        · subst h
          exact ih (t.insert w) w (Or.inr (search_insert_self w t))
        · exact ih (t.insert v) w (Or.inl h)
      · exact ih (t.insert v) w (Or.inr (search_insert_mono v w t h))

theorem buildTrie_search_pre (ws : List (List Char)) :
    ∀ (t : Trie) (w p : List Char), p <+: w →
      (w ∈ ws ∨ t.search p true = true) →
      (ws.foldl Trie.insert t).search p true = true := by
  induction ws with
  | nil =>
      intro t w p _ h
      rcases h with h | h
      · exact absurd h (List.not_mem_nil w)
      · exact h
  | cons v rest ih =>
      intro t w p hp h
      rcases h with h | h
      · rcases List.mem_cons.mp h with h | h
        · subst h
          exact ih (t.insert w) w p hp (Or.inr (search_insert_pre w p t hp))
        · exact ih (t.insert v) w p hp (Or.inl h)
      · exact ih (t.insert v) w p hp (Or.inr (search_insert_pre_mono v p t h))

theorem buildTrie_search_not_mem (ws : List (List Char)) :
    ∀ (t : Trie) (s : List Char), s ∉ ws → t.search s false = false →
      (ws.foldl Trie.insert t).search s false = false := by
  induction ws with
  | nil => intro t s _ h; exact h
  | cons v rest ih =>
      intro t s hs h
      have hsv : s ≠ v := fun hsv => hs (by rw [hsv]; exact List.mem_cons_self v rest)
      have hrest : s ∉ rest := fun hm => hs (List.mem_cons_of_mem v hm)
      exact ih (t.insert v) s hrest (by rw [search_insert_ne v s t hsv]; exact h)

-- Grid model and DFS word finder

/-- Grid size constant from the source (16 cells). -/
def GRID_SIZE : Nat := 16

/-- Grid column count constant from the source (4 columns). -/
def GRID_COLS : Nat := 4

/-- Column of a cell index (JS `tileIndex % GRID_COLS`). -/
def colOf (i : Nat) : Int := (i : Int) % (GRID_COLS : Int)

/-- Row of a cell index (JS `Math.floor(tileIndex / GRID_COLS)`). -/
def rowOf (i : Nat) : Int := (i : Int) / (GRID_COLS : Int)

/-- The eight (rowOffset, colOffset) pairs visited by the JS double loop
over -1..1 × -1..1, skipping (0,0), in loop order. -/
def offsetPairs : List (Int × Int) :=
  [(-1,-1),(-1,0),(-1,1),(0,-1),(0,1),(1,-1),(1,0),(1,1)]

/-- Letter of cell `i` (JS `board[i]`; boards carry 16 letters). -/
def letterAt (board : List Char) (i : Nat) : Char := board.getD i ' '

/-- Neighbor cell indices of `index` in the 4×4 grid: the loop of JS
`getNeighbors`, collecting the in-bounds neighbor indices. -/
def neighborIndices (index : Nat) : List Nat :=
  offsetPairs.filterMap fun off =>
    if 0 ≤ colOf index + off.2 ∧ colOf index + off.2 < (GRID_COLS : Int) ∧
       0 ≤ rowOf index + off.1 ∧ rowOf index + off.1 < (GRID_COLS : Int) then
      some ((rowOf index + off.1) * (GRID_COLS : Int) + (colOf index + off.2)).toNat
    else none

/-- JS `getNeighbors(index, board)`: the letters of the in-bounds
neighbor cells, in loop order. -/
def getNeighbors (index : Nat) (board : List Char) : List Char :=
  offsetPairs.filterMap fun off =>
    if 0 ≤ colOf index + off.2 ∧ colOf index + off.2 < (GRID_COLS : Int) ∧
       0 ≤ rowOf index + off.1 ∧ rowOf index + off.1 < (GRID_COLS : Int) then
      some (letterAt board ((rowOf index + off.1) * (GRID_COLS : Int) + (colOf index + off.2)).toNat)
    else none

/-- The neighbor indices the DFS recurses into from `tileIndex`: in
bounds and not already on the current path (the guard inside
`findWordsRecursive`). -/
def nextIndices (tileIndex : Nat) (path : List Nat) : List Nat :=
  offsetPairs.filterMap fun off =>
    if 0 ≤ colOf tileIndex + off.2 ∧ colOf tileIndex + off.2 < (GRID_COLS : Int) ∧
       0 ≤ rowOf tileIndex + off.1 ∧ rowOf tileIndex + off.1 < (GRID_COLS : Int) ∧
       ((rowOf tileIndex + off.1) * (GRID_COLS : Int) + (colOf tileIndex + off.2)).toNat ∉ path then
      some ((rowOf tileIndex + off.1) * (GRID_COLS : Int) + (colOf tileIndex + off.2)).toNat
    else none

/-- Full 8-directional adjacency on the 4×4 grid: both cells in range,
distinct, row and column each differing by at most 1. -/
def Adjacent (i j : Nat) : Prop :=
  i < 16 ∧ j < 16 ∧ i ≠ j ∧ (rowOf i - rowOf j).natAbs ≤ 1 ∧ (colOf i - colOf j).natAbs ≤ 1

instance (i j : Nat) : Decidable (Adjacent i j) := by
  unfold Adjacent; infer_instance

/-- JS `foundWordsSet.add(prefix)`: append the word unless present. -/
def addWord (found : List (List Char)) (w : List Char) : List (List Char) :=
  if w ∈ found then found else found ++ [w]

/-- JS `findWordsRecursive`, with an explicit recursion budget `fuel`
(the JS recursion depth is bounded by the 16 cells; `solveBoard` runs it
with fuel 16, proved sufficient by `dfs_fuel_stable`). The current
cell's letter is appended to the accumulated word, the branch is pruned
unless the word is a valid dictionary prefix, complete words of length
at least 3 are added to the found set, and the search recurses into
every in-bounds neighbor cell not already on the path. -/
def findWordsRecursive (board : List Char) (trie : Trie) :
    Nat → Nat → List Char → List Nat → List (List Char) → List (List Char)
  | 0, _, _, _, found => found
  | fuel + 1, tileIndex, pre, path, found =>
      if trie.search (pre ++ [letterAt board tileIndex]) true then
        (nextIndices tileIndex path).foldl
          (fun acc n =>
            findWordsRecursive board trie fuel n (pre ++ [letterAt board tileIndex])
              (path ++ [n]) acc)
          (if 3 ≤ (pre ++ [letterAt board tileIndex]).length ∧
              trie.search (pre ++ [letterAt board tileIndex]) false = true then
             addWord found (pre ++ [letterAt board tileIndex])
           else found)
      else found

/-- `solveBoard` with an explicit DFS budget per start cell. -/
def solveBoardFuel (board : List Char) (trie : Trie) (fuel : Nat) : List (List Char) :=
  (List.range GRID_SIZE).foldl
    (fun found i => findWordsRecursive board trie fuel i [] [i] found) []

/-- JS `solveBoard(board, trie)`: run the DFS from each of the 16 cells,
accumulating one deduplicated set of found words. -/
def solveBoard (board : List Char) (trie : Trie) : List (List Char) :=
  solveBoardFuel board trie 16

-- Constraint validator and puzzle generator

def VOWELS : List Char := ['A', 'E', 'I', 'O', 'U']

def HARD_CONSONANTS : List Char := ['J', 'K', 'Q', 'X', 'Z']

/-- Number of vowels on the board (JS `board.filter(...).length`). -/
def vowelCount (board : List Char) : Nat :=
  (board.filter fun l => VOWELS.contains l).length

/-- Number of hard consonants on the board. -/
def hardConsonantCount (board : List Char) : Nat :=
  (board.filter fun l => HARD_CONSONANTS.contains l).length

/-- Index of the first `Q` (JS `board.indexOf("Q")`); equal to
`board.length` when no `Q` is present (where JS returns -1). -/
def indexOfQ : List Char → Nat
  | [] => 0
  | c :: rest => if c = 'Q' then 0 else indexOfQ rest + 1

/-- The validator's Q-U test: pass unless a `Q` is present and the
neighbors of its first occurrence include no `U`. -/
def quCheckOk (board : List Char) : Bool :=
  if indexOfQ board < board.length then
    (getNeighbors (indexOfQ board) board).any fun l => l == 'U'
  else true

/-- JS `checkNoClumps`: no 2×2 window (top-left corner ranging over rows
0–2 and columns 0–2) is all vowels or all non-vowels. -/
def checkNoClumps (board : List Char) : Bool :=
  (List.range 3).all fun row =>
    (List.range 3).all fun col =>
      let clump := [letterAt board (row * GRID_COLS + col),
                    letterAt board (row * GRID_COLS + col + 1),
                    letterAt board (row * GRID_COLS + col + GRID_COLS),
                    letterAt board (row * GRID_COLS + col + GRID_COLS + 1)]
      !((clump.all fun l => VOWELS.contains l) ||
        (clump.all fun l => !(VOWELS.contains l)))

/-- The structural-constraint chain of `generateDailyPuzzle`: a board
survives all four `continue` guards (vowel range, hard-consonant cap,
Q-U adjacency, no clumps). -/
def structuralOk (board : List Char) : Bool :=
  decide (5 ≤ vowelCount board) && decide (vowelCount board ≤ 7) &&
  decide (hardConsonantCount board ≤ 1) && quCheckOk board && checkNoClumps board

/-- Full acceptance test of one attempt: the structural checks, then at
least 30 common-dictionary words, then at most 100 full-dictionary
words. -/
def acceptBoard (commonTrie fullTrie : Trie) (board : List Char) : Bool :=
  structuralOk board && decide (30 ≤ (solveBoard board commonTrie).length) &&
    decide ((solveBoard board fullTrie).length ≤ 100)

/-- The rejection-sampling loop of `generateDailyPuzzle`: `remaining`
attempts left, `attempt` the current attempt index, `sample` the stream
of sampled boards (one per attempt index). Returns the first accepted
board paired with its full-dictionary word list, or `none`. -/
def generateAux (sample : Nat → List Char) (commonTrie fullTrie : Trie) :
    Nat → Nat → Option (List Char × List (List Char))
  | 0, _ => none
  | remaining + 1, attempt =>
      if acceptBoard commonTrie fullTrie (sample attempt) then
        some (sample attempt, solveBoard (sample attempt) fullTrie)
      else generateAux sample commonTrie fullTrie remaining (attempt + 1)

/-- JS `generateDailyPuzzle`: at most 10000 sampling attempts starting
from attempt 0; `none` models the logged hard failure, in which case no
puzzle record is produced. -/
def generateDailyPuzzle (sample : Nat → List Char) (commonTrie fullTrie : Trie) :
    Option (List Char × List (List Char)) :=
  generateAux sample commonTrie fullTrie 10000 0

/-- Number of loop iterations (sampled boards) the generator executes. -/
def generateAttempts (sample : Nat → List Char) (commonTrie fullTrie : Trie) :
    Nat → Nat → Nat
  | 0, _ => 0
  | remaining + 1, attempt =>
      if acceptBoard commonTrie fullTrie (sample attempt) then 1
      else 1 + generateAttempts sample commonTrie fullTrie remaining (attempt + 1)

/-- Spec-level reading of the Q rule: every `Q` cell of the 16-cell grid
has a `U` among its 8 neighbors. -/
def allQHaveUNeighbor (board : List Char) : Bool :=
  (List.range GRID_SIZE).all fun i =>
    !(letterAt board i == 'Q') || (neighborIndices i).any fun j => letterAt board j == 'U'

-- DFS soundness

/-- Every index produced by the DFS neighbor loop is in range, not on
the current path, and (when the current tile is in range) 8-adjacent to
the current tile. -/
theorem mem_nextIndices {tile n : Nat} {path : List Nat}
    (h : n ∈ nextIndices tile path) :
    n < 16 ∧ n ∉ path ∧ (tile < 16 → Adjacent tile n) := by
  rw [nextIndices, List.mem_filterMap] at h
  obtain ⟨off, hoff, heq⟩ := h
  simp only [offsetPairs, List.mem_cons, List.not_mem_nil, or_false] at hoff
  rcases hoff with rfl | rfl | rfl | rfl | rfl | rfl | rfl | rfl <;>
  · split at heq
    · rename_i hc
      injection heq with heq
      subst heq
      obtain ⟨h1, h2, h3, h4, h5⟩ := hc
      refine ⟨?_, h5, fun ht => ?_⟩
      · simp only [rowOf, colOf, GRID_COLS] at h1 h2 h3 h4 ⊢
        omega
      · simp only [rowOf, colOf, GRID_COLS] at h1 h2 h3 h4
        simp only [Adjacent, rowOf, colOf, GRID_COLS]
        refine ⟨ht, ?_, ?_, ?_, ?_⟩ <;> omega
    · exact absurd heq (by simp)

theorem mem_addWord {found : List (List Char)} {v w : List Char}
    (h : w ∈ addWord found v) : w ∈ found ∨ w = v := by
  rw [addWord] at h
  split at h
  · exact Or.inl h
  · rcases List.mem_append.mp h with h | h
    · exact Or.inl h
    · exact Or.inr (List.mem_singleton.mp h)

theorem nodup_append_single {l : List Nat} {n : Nat} (h : l.Nodup) (hn : n ∉ l) :
    (l ++ [n]).Nodup := by
  rw [List.nodup_append]
  exact ⟨h, List.nodup_singleton n,
    fun a ha hb => hn (by rwa [List.mem_singleton.mp hb] at ha)⟩

theorem chain_append_single {l : List Nat} {a n : Nat}
    (h : List.Chain' Adjacent (l ++ [a])) (hadj : Adjacent a n) :
    List.Chain' Adjacent ((l ++ [a]) ++ [n]) := by
  rw [List.chain'_append]
  refine ⟨h, List.chain'_singleton n, ?_⟩
  intro x hx y hy
  rw [List.getLast?_concat] at hx
  simp only [Option.mem_def, Option.some.injEq] at hx
  simp only [List.head?_cons, Option.mem_def, Option.some.injEq] at hy
  subst hx
  subst hy
  exact hadj

/-- A word together with its witness path: a duplicate-free chain of
8-adjacent in-range cells spelling the word, of length at least 3 and
marked complete in the trie. -/
def FoundWordOk (board : List Char) (trie : Trie) (w : List Char) : Prop :=
  (∃ p : List Nat, p.Nodup ∧ List.Chain' Adjacent p ∧ (∀ i ∈ p, i < 16) ∧
      p.map (letterAt board) = w) ∧ 3 ≤ w.length ∧ trie.search w false = true

/-- Soundness invariant of the DFS: every word it returns was already in
the accumulator or is a `FoundWordOk` word of this board and trie. -/
theorem findWordsRecursive_sound (board : List Char) (trie : Trie) :
    ∀ (fuel tile : Nat) (pre : List Char) (path : List Nat) (found : List (List Char)),
      (∃ p0, path = p0 ++ [tile] ∧ pre = p0.map (letterAt board)) →
      path.Nodup → List.Chain' Adjacent path → (∀ i ∈ path, i < 16) →
      ∀ w ∈ findWordsRecursive board trie fuel tile pre path found,
        w ∈ found ∨ FoundWordOk board trie w := by
  intro fuel
  induction fuel with
  | zero =>
      intro tile pre path found _ _ _ _ w hw
      rw [findWordsRecursive] at hw
      exact Or.inl hw
  | succ fuel ih =>
      rintro tile pre path found ⟨p0, rfl, rfl⟩ hnd hch hlt w hw
      rw [findWordsRecursive] at hw
      split at hw
      · -- the accumulated word is a valid dictionary word start
        have htile : tile < 16 := hlt tile (by simp)
        have hstart : ∀ w', w' ∈ (if 3 ≤ (p0.map (letterAt board) ++ [letterAt board tile]).length ∧
              trie.search (p0.map (letterAt board) ++ [letterAt board tile]) false = true then
              addWord found (p0.map (letterAt board) ++ [letterAt board tile]) else found) →
            w' ∈ found ∨ FoundWordOk board trie w' := by
          intro w' hw'
          split at hw'
          · rename_i hcond
            rcases mem_addWord hw' with h | h
            · exact Or.inl h
            · subst h
              refine Or.inr ⟨⟨p0 ++ [tile], hnd, hch, hlt, ?_⟩, hcond.1, hcond.2⟩
              rw [List.map_append]
              rfl
          · exact Or.inl hw'
        have hfold : ∀ (l : List Nat) (acc : List (List Char)),
            (∀ n ∈ l, n < 16 ∧ n ∉ (p0 ++ [tile]) ∧ Adjacent tile n) →
            (∀ w', w' ∈ acc → w' ∈ found ∨ FoundWordOk board trie w') →
            ∀ w', w' ∈ l.foldl
                (fun acc n => findWordsRecursive board trie fuel n
                  (p0.map (letterAt board) ++ [letterAt board tile]) ((p0 ++ [tile]) ++ [n]) acc)
                acc →
              w' ∈ found ∨ FoundWordOk board trie w' := by
          intro l
          induction l with
          | nil => intro acc _ hacc w' hw'; exact hacc w' hw'
          | cons n rest ihl =>
              intro acc hl hacc w' hw'
              rw [List.foldl_cons] at hw'
              refine ihl _ (fun m hm => hl m (List.mem_cons_of_mem n hm)) ?_ w' hw'
              intro w'' hw''
              obtain ⟨hn16, hnp, hadj⟩ := hl n (List.mem_cons_self n rest)
              have hrec := ih n (p0.map (letterAt board) ++ [letterAt board tile])
                ((p0 ++ [tile]) ++ [n]) acc
                ⟨p0 ++ [tile], rfl, by rw [List.map_append]; rfl⟩
                (nodup_append_single hnd hnp)
                (chain_append_single hch hadj)
                (by
                  intro i hi
                  rcases List.mem_append.mp hi with hi | hi
                  · exact hlt i hi
                  · rw [List.mem_singleton.mp hi]; exact hn16)
                w'' hw''
              rcases hrec with h | h
              · exact hacc w'' h
              · exact Or.inr h
        exact hfold _ _
          (fun n hn => by
            obtain ⟨h16, hnp, hadj⟩ := mem_nextIndices hn
            exact ⟨h16, hnp, hadj htile⟩)
          hstart w hw
      · exact Or.inl hw

theorem solveBoardFuel_sound (board : List Char) (trie : Trie) (fuel : Nat) :
    ∀ w ∈ solveBoardFuel board trie fuel, FoundWordOk board trie w := by
  rw [solveBoardFuel]
  have key : ∀ (l : List Nat) (acc : List (List Char)),
      (∀ i ∈ l, i < 16) →
      (∀ w ∈ acc, FoundWordOk board trie w) →
      ∀ w ∈ l.foldl (fun found i => findWordsRecursive board trie fuel i [] [i] found) acc,
        FoundWordOk board trie w := by
    intro l
    induction l with
    | nil => intro acc _ hacc w hw; exact hacc w hw
    | cons i rest ihl =>
        intro acc hl hacc w hw
        rw [List.foldl_cons] at hw
        refine ihl _ (fun j hj => hl j (List.mem_cons_of_mem i hj)) ?_ w hw
        intro w' hw'
        have hi : i < 16 := hl i (List.mem_cons_self i rest)
        have := findWordsRecursive_sound board trie fuel i [] [i] acc
          ⟨[], rfl, rfl⟩ (List.nodup_singleton i) (List.chain'_singleton i)
          (by intro j hj; rw [List.mem_singleton.mp hj]; exact hi) w' hw'
        rcases this with h | h
        · exact hacc w' h
        · exact h
  intro w hw
  exact key (List.range GRID_SIZE) []
    (fun i hi => List.mem_range.mp hi) (by simp) w hw

theorem nodup_lt16_length_le {p : List Nat} (hnd : p.Nodup) (hlt : ∀ i ∈ p, i < 16) :
    p.length ≤ 16 := by
  have hsub : p ⊆ List.range 16 := fun i hi => List.mem_range.mpr (hlt i hi)
  have := (hnd.subperm hsub).length_le
  simpa using this

-- DFS fuel stabilization: recursion depth is bounded by the 16 cells

theorem findWordsRecursive_fuel_succ (board : List Char) (trie : Trie) :
    ∀ (fuel tile : Nat) (pre : List Char) (path : List Nat) (found : List (List Char)),
      path.Nodup → (∀ i ∈ path, i < 16) → 17 ≤ fuel + path.length →
      findWordsRecursive board trie (fuel + 1) tile pre path found =
        findWordsRecursive board trie fuel tile pre path found := by
  intro fuel
  induction fuel with
  | zero =>
      intro tile pre path found hnd hlt hlen
      have := nodup_lt16_length_le hnd hlt
      omega
  | succ fuel ih =>
      intro tile pre path found hnd hlt hlen
      rw [findWordsRecursive, findWordsRecursive]
      have hfold : ∀ (l : List Nat) (acc : List (List Char)),
          (∀ n ∈ l, n < 16 ∧ n ∉ path) →
          l.foldl (fun acc n => findWordsRecursive board trie (fuel + 1) n
            (pre ++ [letterAt board tile]) (path ++ [n]) acc) acc =
          l.foldl (fun acc n => findWordsRecursive board trie fuel n
            (pre ++ [letterAt board tile]) (path ++ [n]) acc) acc := by
        intro l
        induction l with
        | nil => intro acc _; rfl
        | cons n rest ihl =>
            intro acc hl
            rw [List.foldl_cons, List.foldl_cons]
            obtain ⟨h16, hnp⟩ := hl n (List.mem_cons_self n rest)
            rw [ih n (pre ++ [letterAt board tile]) (path ++ [n]) acc
              (nodup_append_single hnd hnp)
              (by
                intro i hi
                rcases List.mem_append.mp hi with hi | hi
                · exact hlt i hi
                · rw [List.mem_singleton.mp hi]; exact h16)
              (by simp only [List.length_append, List.length_singleton]; omega)]
            exact ihl _ (fun m hm => hl m (List.mem_cons_of_mem n hm))
      split
      · exact hfold _ _ (fun n hn => ⟨(mem_nextIndices hn).1, (mem_nextIndices hn).2.1⟩)
      · rfl

theorem solveBoardFuel_succ (board : List Char) (trie : Trie) (fuel : Nat) (h : 16 ≤ fuel) :
    solveBoardFuel board trie (fuel + 1) = solveBoardFuel board trie fuel := by
  rw [solveBoardFuel, solveBoardFuel]
  have key : ∀ (l : List Nat) (acc : List (List Char)),
      (∀ i ∈ l, i < 16) →
      l.foldl (fun found i => findWordsRecursive board trie (fuel + 1) i [] [i] found) acc =
      l.foldl (fun found i => findWordsRecursive board trie fuel i [] [i] found) acc := by
    intro l
    induction l with
    | nil => intro acc _; rfl
    | cons i rest ihl =>
        intro acc hl
        rw [List.foldl_cons, List.foldl_cons,
          findWordsRecursive_fuel_succ board trie fuel i [] [i] acc
            (List.nodup_singleton i)
            (by intro j hj; rw [List.mem_singleton.mp hj]; exact hl i (List.mem_cons_self i rest))
            (by simp only [List.length_singleton]; omega)]
        exact ihl _ (fun j hj => hl j (List.mem_cons_of_mem i hj))
  exact key _ _ (fun i hi => List.mem_range.mp hi)

-- Empty-trie behaviour

theorem search_empty_pre_false (v : List Char) (c : Char) :
    emptyTrie.search (v ++ [c]) true = false := by
  cases v with
  | nil => rfl
  | cons d v =>
      rw [List.cons_append, emptyTrie, search_cons]
      rfl

theorem findWordsRecursive_empty (board : List Char) :
    ∀ (fuel tile : Nat) (pre : List Char) (path : List Nat) (found : List (List Char)),
      findWordsRecursive board emptyTrie fuel tile pre path found = found := by
  intro fuel
  cases fuel with
  | zero => intro tile pre path found; rw [findWordsRecursive]
  | succ fuel =>
      intro tile pre path found
      rw [findWordsRecursive]
      simp [search_empty_pre_false]

-- Adjacency model facts

theorem getNeighbors_eq_map (index : Nat) (board : List Char) :
    getNeighbors index board = (neighborIndices index).map (letterAt board) := by
  rw [getNeighbors, neighborIndices, List.map_filterMap]
  congr 1
  funext off
  by_cases h : 0 ≤ colOf index + off.2 ∧ colOf index + off.2 < (GRID_COLS : Int) ∧
      0 ≤ rowOf index + off.1 ∧ rowOf index + off.1 < (GRID_COLS : Int)
  · rw [if_pos h, if_pos h]
    rfl
  · rw [if_neg h, if_neg h]
    rfl

theorem neighborIndices_lt16 : ∀ i < 16, ∀ j ∈ neighborIndices i, j < 16 := by decide

theorem neighborIndices_adjacent_iff :
    ∀ i < 16, ∀ j < 16, (j ∈ neighborIndices i ↔ Adjacent i j) := by decide

theorem neighborIndices_card :
    ∀ i < 16, 3 ≤ (neighborIndices i).length ∧ (neighborIndices i).length ≤ 8 := by decide

theorem nextIndices_nil_eq : ∀ i < 16, nextIndices i [] = neighborIndices i := by decide

-- List helpers for the validator

theorem getD_mem : ∀ (l : List Char) (i : Nat), i < l.length → l.getD i ' ' ∈ l := by
  intro l
  induction l with
  | nil => intro i hi; simp at hi
  | cons c rest ih =>
      intro i hi
      cases i with
      | zero => exact List.mem_cons_self c rest
      | succ j => exact List.mem_cons_of_mem c (ih j (by simpa using hi))

theorem getD_default_of_ge : ∀ (l : List Char) (i : Nat), l.length ≤ i → l.getD i ' ' = ' ' := by
  intro l
  induction l with
  | nil => intro i _; cases i <;> rfl
  | cons c rest ih =>
      intro i hi
      cases i with
      | zero => simp at hi
      | succ j => exact ih j (by simpa using hi)

theorem filter_length_mono (p q : Char → Bool) (h : ∀ c, p c = true → q c = true) :
    ∀ l : List Char, (l.filter p).length ≤ (l.filter q).length := by
  intro l
  induction l with
  | nil => simp
  | cons c rest ih =>
      rw [List.filter_cons, List.filter_cons]
      by_cases hp : p c = true
      · rw [if_pos hp, if_pos (h c hp)]
        simpa using ih
      · rw [if_neg hp]
        by_cases hq : q c = true
        · rw [if_pos hq]
          simp only [List.length_cons]
          omega
        · rw [if_neg hq]
          exact ih

theorem indexOfQ_le_length : ∀ l : List Char, indexOfQ l ≤ l.length := by
  intro l
  induction l with
  | nil => simp [indexOfQ]
  | cons c rest ih =>
      rw [indexOfQ]
      by_cases hc : c = 'Q'
      · rw [if_pos hc]; simp
      · rw [if_neg hc]; simpa using ih

theorem indexOfQ_eq_length_of_not_mem : ∀ l : List Char, 'Q' ∉ l → indexOfQ l = l.length := by
  intro l
  induction l with
  | nil => intro _; rfl
  | cons c rest ih =>
      intro h
      have hc : c ≠ 'Q' := fun hc => h (by rw [hc]; exact List.mem_cons_self _ _)
      rw [indexOfQ, if_neg hc, List.length_cons,
        ih (fun hm => h (List.mem_cons_of_mem c hm))]

theorem indexOfQ_lt_length_of_mem : ∀ l : List Char, 'Q' ∈ l → indexOfQ l < l.length := by
  intro l
  induction l with
  | nil => intro h; simp at h
  | cons c rest ih =>
      intro h
      rw [indexOfQ]
      by_cases hc : c = 'Q'
      · rw [if_pos hc]; simp
      · rw [if_neg hc, List.length_cons]
        have : 'Q' ∈ rest := by
          rcases List.mem_cons.mp h with h | h
          · exact absurd h.symm hc
          · exact h
        have := ih this
        omega

theorem getD_indexOfQ : ∀ l : List Char, 'Q' ∈ l → l.getD (indexOfQ l) ' ' = 'Q' := by
  intro l
  induction l with
  | nil => intro h; simp at h
  | cons c rest ih =>
      intro h
      rw [indexOfQ]
      by_cases hc : c = 'Q'
      · rw [if_pos hc]; exact hc
      · rw [if_neg hc]
        have hm : 'Q' ∈ rest := by
          rcases List.mem_cons.mp h with h | h
          · exact absurd h.symm hc
          · exact h
        simpa using ih hm

/-- With at most one `Q` on the list, any `Q` position is the first. -/
theorem q_unique : ∀ l : List Char, (l.filter fun c => c == 'Q').length ≤ 1 →
    ∀ i, i < l.length → l.getD i ' ' = 'Q' → i = indexOfQ l := by
  intro l
  induction l with
  | nil => intro _ i hi; simp at hi
  | cons c rest ih =>
      intro h1 i hi hq
      rw [indexOfQ]
      by_cases hc : c = 'Q'
      · rw [if_pos hc]
        by_contra hne
        obtain ⟨j, rfl⟩ : ∃ j, i = j + 1 := ⟨i - 1, by omega⟩
        have hjlen : j < rest.length := by simpa using hi
        have hjq : rest.getD j ' ' = 'Q' := hq
        have hmem : 'Q' ∈ rest := by
          have := getD_mem rest j hjlen
          rwa [hjq] at this
        rw [List.filter_cons, if_pos (by simp [hc])] at h1
        have hpos : 0 < (rest.filter fun c => c == 'Q').length :=
          List.length_pos_of_mem (List.mem_filter.mpr ⟨hmem, by simp⟩)
        simp only [List.length_cons] at h1
        omega
      · rw [if_neg hc]
        cases i with
        | zero => exact absurd hq hc
        | succ j =>
            have hjlen : j < rest.length := by simpa using hi
            rw [List.filter_cons, if_neg (by simp [hc])] at h1
            have := ih h1 j hjlen hq
            omega

theorem bool_eq_of_iff {a b : Bool} (h : a = true ↔ b = true) : a = b := by
  cases a <;> cases b <;> simp_all

-- Q-check analysis

theorem any_map_general {α β : Type} (l : List α) (f : α → β) (p : β → Bool) :
    (l.map f).any p = l.any fun a => p (f a) := by
  induction l with
  | nil => rfl
  | cons a rest ih => simp [List.any_cons, ih]

theorem qcount_le_of_hard {board : List Char} (hhard : hardConsonantCount board ≤ 1) :
    (board.filter fun c => c == 'Q').length ≤ 1 := by
  refine le_trans (filter_length_mono _ _ ?_ board) hhard
  intro c hc
  have hc' : c = 'Q' := by simpa using hc
  subst hc'
  decide

theorem letterAt_ne_q_of_not_mem {board : List Char} (h : 'Q' ∉ board) (i : Nat) :
    letterAt board i ≠ 'Q' := by
  intro hq
  rw [letterAt] at hq
  by_cases hlt : i < board.length
  · exact h (by rw [← hq]; exact getD_mem board i hlt)
  · rw [getD_default_of_ge board i (by omega)] at hq
    exact absurd hq (by decide)

/-- If the hard-consonant cap holds and the validator's first-Q test
passes, then every `Q` cell of the grid has a `U` neighbor. -/
theorem allQ_of_quCheck {board : List Char} (hhard : hardConsonantCount board ≤ 1)
    (hqu : quCheckOk board = true) : allQHaveUNeighbor board = true := by
  have hq1 := qcount_le_of_hard hhard
  rw [allQHaveUNeighbor, List.all_eq_true]
  intro i hi
  by_cases hq : letterAt board i = 'Q'
  · have hilt : i < board.length := by
      by_contra hge
      rw [letterAt, getD_default_of_ge board i (by omega)] at hq
      exact absurd hq (by decide)
    have hieq : i = indexOfQ board := q_unique board hq1 i hilt hq
    subst hieq
    rw [quCheckOk, if_pos hilt, getNeighbors_eq_map, any_map_general] at hqu
    simp only [Bool.or_eq_true]
    right
    exact hqu
  · simp [hq]

-- Generator loop lemmas

theorem acceptBoard_parts {commonTrie fullTrie : Trie} {board : List Char}
    (h : acceptBoard commonTrie fullTrie board = true) :
    structuralOk board = true ∧ 30 ≤ (solveBoard board commonTrie).length ∧
      (solveBoard board fullTrie).length ≤ 100 := by
  rw [acceptBoard] at h
  simp only [Bool.and_eq_true, decide_eq_true_eq] at h
  exact ⟨h.1.1, h.1.2, h.2⟩

theorem structuralOk_parts {board : List Char} (h : structuralOk board = true) :
    5 ≤ vowelCount board ∧ vowelCount board ≤ 7 ∧ hardConsonantCount board ≤ 1 ∧
      quCheckOk board = true ∧ checkNoClumps board = true := by
  rw [structuralOk] at h
  simp only [Bool.and_eq_true, decide_eq_true_eq] at h
  exact ⟨h.1.1.1.1, h.1.1.1.2, h.1.1.2, h.1.2, h.2⟩

/-- Any property of accepted boards holds of whatever the sampling loop
returns. -/
theorem generateAux_all (sample : Nat → List Char) (commonTrie fullTrie : Trie)
    (P : List Char × List (List Char) → Bool)
    (hP : ∀ board, acceptBoard commonTrie fullTrie board = true →
      P (board, solveBoard board fullTrie) = true) :
    ∀ (n a : Nat), Option.all P (generateAux sample commonTrie fullTrie n a) = true := by
  intro n
  induction n with
  | zero => intro a; rfl
  | succ n ih =>
      intro a
      rw [generateAux]
      by_cases hacc : acceptBoard commonTrie fullTrie (sample a) = true
      · rw [if_pos hacc]
        exact hP _ hacc
      · rw [if_neg hacc]
        exact ih (a + 1)

/-- If no board in the window is accepted, the loop runs through all its
attempts and returns `none`. -/
theorem generateAux_none (sample : Nat → List Char) (commonTrie fullTrie : Trie) :
    ∀ (n a : Nat),
      (∀ i, a ≤ i → i < a + n → acceptBoard commonTrie fullTrie (sample i) = false) →
      generateAux sample commonTrie fullTrie n a = none ∧
        generateAttempts sample commonTrie fullTrie n a = n := by
  intro n
  induction n with
  | zero => intro a _; exact ⟨rfl, rfl⟩
  | succ n ih =>
      intro a h
      have ha : acceptBoard commonTrie fullTrie (sample a) = false :=
        h a (le_refl a) (by omega)
      have hrest := ih (a + 1) (fun i h1 h2 => h i (by omega) (by omega))
      constructor
      · rw [generateAux, if_neg (by rw [ha]; exact Bool.false_ne_true), hrest.1]
      · rw [generateAttempts, if_neg (by rw [ha]; exact Bool.false_ne_true), hrest.2]
        omega

-- Concrete demonstration inputs

/-- The spec's concrete scenario board: `C A T S / O R E N / D I N G / L O S T`. -/
def demoBoard : List Char :=
  ['C','A','T','S','O','R','E','N','D','I','N','G','L','O','S','T']

def demoTrie : Trie := buildTrie [['C','A','T']]

def demoTrie2 : Trie := buildTrie [['T','E','N']]

/-- A 16-cell board with a single hard consonant `Q` next to a `U`. -/
def demoBoardQ : List Char :=
  ['Q','U','B','B','B','B','B','B','B','B','B','B','B','B','B','B']

/-- A constant sampler producing an all-consonant board. -/
def constBoardSample : Nat → List Char := fun _ => List.replicate 16 'B'

-- Claim theorems

/-- Claim C1: every string in the Found-Words Set produced by
`solveBoard` is traceable to a simple path (no repeated cell) of
8-adjacent cells on that board, has length at least 3 (so a 2-letter
dictionary word can never appear), its concatenated letters equal the
string, and it is marked a complete word in the trie used for the
search, not merely a valid prefix. -/
theorem found_words_sound (board : List Char) (trie : Trie) (w : List Char)
    (h : w ∈ solveBoard board trie) :
    (∃ p : List Nat, p.Nodup ∧ List.Chain' Adjacent p ∧ (∀ i ∈ p, i < 16) ∧
        p.map (letterAt board) = w) ∧
      3 ≤ w.length ∧ trie.search w false = true :=
  solveBoardFuel_sound board trie 16 w h

theorem found_words_sound_witness :
    (['C','A','T'] ∈ solveBoard demoBoard demoTrie) ∧
      ((∃ p : List Nat, p.Nodup ∧ List.Chain' Adjacent p ∧ (∀ i ∈ p, i < 16) ∧
          p.map (letterAt demoBoard) = ['C','A','T']) ∧
        3 ≤ (['C','A','T'] : List Char).length ∧
        demoTrie.search ['C','A','T'] false = true) :=
  ⟨by decide, found_words_sound demoBoard demoTrie _ (by decide)⟩

/-- Claim C5: Trie round-trip. For a trie built by inserting the words
`ws`: `containsWord` (search with isPrefix false) is true for every
inserted word; `containsPrefix` (search with isPrefix true) is true for
every prefix of an inserted word; and for any string never inserted as
a complete word, `containsWord` is false, even when `containsPrefix` is
true because the string properly extends to an inserted word. -/
theorem trie_round_trip (ws : List (List Char)) (w p s : List Char)
    (hw : w ∈ ws) (hp : p <+: w) (hs : s ∉ ws) :
    (buildTrie ws).search w false = true ∧
      (buildTrie ws).search p true = true ∧
      (buildTrie ws).search s false = false :=
  ⟨buildTrie_search_mem ws emptyTrie w (Or.inl hw),
    buildTrie_search_pre ws emptyTrie w p hp (Or.inl hw),
    buildTrie_search_not_mem ws emptyTrie s hs (search_empty_false s)⟩

theorem trie_round_trip_witness :
    ((['C','A','T'] : List Char) ∈ [['C','A','T'], ['C','A','R']] ∧
      (['C','A'] : List Char) <+: ['C','A','T'] ∧
      (['C','A'] : List Char) ∉ [['C','A','T'], ['C','A','R']]) ∧
      ((buildTrie [['C','A','T'], ['C','A','R']]).search ['C','A','T'] false = true ∧
        (buildTrie [['C','A','T'], ['C','A','R']]).search ['C','A'] true = true ∧
        (buildTrie [['C','A','T'], ['C','A','R']]).search ['C','A'] false = false) :=
  ⟨⟨by decide, ⟨['T'], rfl⟩, by decide⟩,
    trie_round_trip _ _ _ _ (by decide) ⟨['T'], rfl⟩ (by decide)⟩

/-- Claim C6: running the Word Finder with the empty trie (root with no
children and no terminal marker) returns the empty Found-Words Set for
every board; the search is total and raises no error. -/
theorem solveBoard_empty_trie (board : List Char) : solveBoard board emptyTrie = [] := by
  rw [solveBoard, solveBoardFuel]
  have key : ∀ (l : List Nat) (acc : List (List Char)),
      l.foldl (fun found i => findWordsRecursive board emptyTrie 16 i [] [i] found) acc = acc := by
    intro l
    induction l with
    | nil => intro acc; rfl
    | cons i rest ihl =>
        intro acc
        rw [List.foldl_cons, findWordsRecursive_empty board 16 i [] [i] acc]
        exact ihl acc
  exact key _ []

/-- Claim C7: for every cell `i` of the 4×4 grid, the adjacency model's
neighbor set consists exactly of the in-bounds cells whose row and
column differ from `i` by offsets in -1..1, excluding `i` itself; it
has between 3 (corner) and 8 (interior) elements; `getNeighbors` reads
exactly the letters of those cells; and the DFS neighbor loop agrees
with it (on the empty path). -/
theorem neighbor_spec (i : Nat) (h : i < 16) :
    (∀ j : Nat, j ∈ neighborIndices i ↔ Adjacent i j) ∧
      3 ≤ (neighborIndices i).length ∧ (neighborIndices i).length ≤ 8 ∧
      (∀ board : List Char, getNeighbors i board = (neighborIndices i).map (letterAt board)) ∧
      nextIndices i [] = neighborIndices i := by
  refine ⟨?_, (neighborIndices_card i h).1, (neighborIndices_card i h).2,
    fun board => getNeighbors_eq_map i board, nextIndices_nil_eq i h⟩
  intro j
  by_cases hj : j < 16
  · exact neighborIndices_adjacent_iff i h j hj
  · constructor
    · intro hm
      exact absurd (neighborIndices_lt16 i h j hm) hj
    · intro hadj
      exact absurd hadj.2.1 hj

theorem neighbor_spec_witness :
    (5 : Nat) < 16 ∧
      ((∀ j : Nat, j ∈ neighborIndices 5 ↔ Adjacent 5 j) ∧
        3 ≤ (neighborIndices 5).length ∧ (neighborIndices 5).length ≤ 8 ∧
        (∀ board : List Char, getNeighbors 5 board = (neighborIndices 5).map (letterAt board)) ∧
        nextIndices 5 [] = neighborIndices 5) :=
  ⟨by decide, neighbor_spec 5 (by decide)⟩

/-- Claim C8: the DFS terminates; its recursion depth is bounded by the
16 cells, because each recursive call extends the path with a fresh
cell. Concretely, giving the search any fuel beyond 16 changes
nothing. -/
theorem dfs_fuel_stable (board : List Char) (trie : Trie) (fuel : Nat) (h : 16 ≤ fuel) :
    solveBoardFuel board trie fuel = solveBoard board trie := by
  rw [solveBoard]
  induction fuel with
  | zero => omega
  | succ fuel ihf =>
      rcases Nat.lt_or_ge fuel 16 with hlt | hge
      · have h16 : fuel + 1 = 16 := by omega
        rw [h16]
      · rw [solveBoardFuel_succ board trie fuel hge, ihf hge]

theorem dfs_fuel_stable_witness :
    16 ≤ 17 ∧ solveBoardFuel demoBoard demoTrie 17 = solveBoard demoBoard demoTrie :=
  ⟨by decide, dfs_fuel_stable demoBoard demoTrie 17 (by decide)⟩

/-- Claim C9: on a 16-cell board that passed the hard-consonant cap
there is at most one `Q`, so the validator's Q-U check via the first
occurrence of `Q` coincides with requiring a `U` neighbor of every `Q`
on the board. -/
theorem qu_check_equiv_single_q (board : List Char) (hlen : board.length = 16)
    (hhard : hardConsonantCount board ≤ 1) :
    quCheckOk board = allQHaveUNeighbor board := by
  by_cases hmem : 'Q' ∈ board
  · apply bool_eq_of_iff
    constructor
    · intro hqu
      exact allQ_of_quCheck hhard hqu
    · intro hall
      have hqi_lt : indexOfQ board < board.length := indexOfQ_lt_length_of_mem board hmem
      have hqi_q : board.getD (indexOfQ board) ' ' = 'Q' := getD_indexOfQ board hmem
      rw [quCheckOk, if_pos hqi_lt, getNeighbors_eq_map, any_map_general]
      rw [allQHaveUNeighbor, List.all_eq_true] at hall
      have h16 : indexOfQ board < 16 := by omega
      have hq := hall (indexOfQ board) (List.mem_range.mpr h16)
      simp only [Bool.or_eq_true, Bool.not_eq_true'] at hq
      rcases hq with hfalse | hany
      · rw [letterAt, hqi_q] at hfalse
        simp at hfalse
      · exact hany
  · have hlen_eq : indexOfQ board = board.length := indexOfQ_eq_length_of_not_mem board hmem
    rw [quCheckOk, if_neg (by omega)]
    symm
    rw [allQHaveUNeighbor, List.all_eq_true]
    intro i hi
    have hne := letterAt_ne_q_of_not_mem hmem i
    simp [hne]

theorem qu_check_equiv_single_q_witness :
    demoBoardQ.length = 16 ∧ hardConsonantCount demoBoardQ ≤ 1 ∧
      quCheckOk demoBoardQ = allQHaveUNeighbor demoBoardQ :=
  ⟨by decide, by decide, qu_check_equiv_single_q demoBoardQ (by decide) (by decide)⟩

/-- Claim C10: every word in the Found-Words Set has length at most 16,
since each of its letters comes from a distinct cell of the 16-cell
board along a non-repeating path; with the minimum-length rule every
found word's length lies in the closed range 3..16. -/
theorem found_word_length_bounds (board : List Char) (trie : Trie) (w : List Char)
    (h : w ∈ solveBoard board trie) : 3 ≤ w.length ∧ w.length ≤ 16 := by
  obtain ⟨⟨p, hnd, _, hlt, hmap⟩, h3, _⟩ := solveBoardFuel_sound board trie 16 w h
  refine ⟨h3, ?_⟩
  rw [← hmap, List.length_map]
  exact nodup_lt16_length_le hnd hlt

theorem found_word_length_bounds_witness :
    (['T','E','N'] ∈ solveBoard demoBoard demoTrie2) ∧
      (3 ≤ (['T','E','N'] : List Char).length ∧ (['T','E','N'] : List Char).length ≤ 16) :=
  ⟨by decide, found_word_length_bounds demoBoard demoTrie2 _ (by decide)⟩

/-- Claim C2: whatever board the rejection-sampling loop accepts, its
common-dictionary word count recomputed by `solveBoard` is at least the
configured floor 30, and its full-dictionary word count is at most the
configured ceiling 100. -/
theorem accepted_word_counts (sample : Nat → List Char) (commonTrie fullTrie : Trie) :
    Option.all
      (fun bw => decide (30 ≤ (solveBoard bw.1 commonTrie).length) &&
        decide ((solveBoard bw.1 fullTrie).length ≤ 100))
      (generateDailyPuzzle sample commonTrie fullTrie) = true := by
  rw [generateDailyPuzzle]
  apply generateAux_all
  intro board hacc
  obtain ⟨_, h30, h100⟩ := acceptBoard_parts hacc
  simp [h30, h100]

/-- Claim C3: whatever board the rejection-sampling loop accepts has a
vowel count in the closed range 5..7, at most one hard consonant, a `U`
among the 8 neighbors of every `Q` cell, and no all-vowel or
all-non-vowel 2×2 window. -/
theorem accepted_structural (sample : Nat → List Char) (commonTrie fullTrie : Trie) :
    Option.all
      (fun bw => decide (5 ≤ vowelCount bw.1) && decide (vowelCount bw.1 ≤ 7) &&
        decide (hardConsonantCount bw.1 ≤ 1) && allQHaveUNeighbor bw.1 &&
        checkNoClumps bw.1)
      (generateDailyPuzzle sample commonTrie fullTrie) = true := by
  rw [generateDailyPuzzle]
  apply generateAux_all
  intro board hacc
  obtain ⟨hstruct, _, _⟩ := acceptBoard_parts hacc
  obtain ⟨h5, h7, hhard, hqu, hcl⟩ := structuralOk_parts hstruct
  simp [h5, h7, hhard, allQ_of_quCheck hhard hqu, hcl]

/-- Claim C4: if no sampled board is accepted within the attempt
ceiling, the generator terminates after exactly 10000 attempts,
produces no puzzle record, and reports the failure (`none`) as an
outcome distinct from success. -/
theorem generator_exhaustion (sample : Nat → List Char) (commonTrie fullTrie : Trie)
    (h : ∀ i < 10000, acceptBoard commonTrie fullTrie (sample i) = false) :
    generateDailyPuzzle sample commonTrie fullTrie = none ∧
      generateAttempts sample commonTrie fullTrie 10000 0 = 10000 := by
  have key := generateAux_none sample commonTrie fullTrie 10000 0
    (fun i h1 h2 => h i (by omega))
  exact ⟨by rw [generateDailyPuzzle]; exact key.1, key.2⟩

theorem generator_exhaustion_witness :
    (∀ i < 10000, acceptBoard emptyTrie emptyTrie (constBoardSample i) = false) ∧
      (generateDailyPuzzle constBoardSample emptyTrie emptyTrie = none ∧
        generateAttempts constBoardSample emptyTrie emptyTrie 10000 0 = 10000) :=
  have hconst : acceptBoard emptyTrie emptyTrie (List.replicate 16 'B') = false := by decide
  ⟨fun i _ => hconst,
    generator_exhaustion constBoardSample emptyTrie emptyTrie (fun i _ => hconst)⟩
